import Mathlib

/-!
Verification of the n8n workflow dataset ETL pipeline
(consolidate / categorize / split / rename / analyze scripts).

The scripts are shallowly embedded: parsed JSON values become the `Json`
inductive below, JavaScript truthiness and field access are modelled
explicitly, and each script's per-file / per-line processing becomes a pure
Lean function.  Filesystem reads are abstracted as inputs (a file is its
parse result), and writes are collected as explicit output lists.
A JavaScript statement that throws a `TypeError` inside a script's
per-record `try` block is modelled by an `Option`-valued function
returning `none`.
-/

/-- Parsed JSON values (numbers are modelled as integers; the dataset's
workflow files and the fields the scripts inspect carry no fractional
numbers). -/
inductive Json where
  | null
  | bool (b : Bool)
  | num (n : Int)
  | str (s : String)
  | arr (elems : List Json)
  | obj (fields : List (String × Json))

/-- Property access `value[key]` as JavaScript performs it on a parsed JSON
value: a lookup on an object, `undefined` (here `none`) on anything else.
The scripts only access named (non-index) properties. -/
def getField : Json → String → Option Json
  | .obj fs, k => fs.lookup k
  | _, _ => none

/-- JavaScript truthiness of a parsed JSON value. -/
def truthy : Json → Bool
  | .null => false
  | .bool b => b
  | .num n => n != 0
  | .str s => s != ""
  | .arr _ => true
  | .obj _ => true

/-- The JavaScript `a || b` fallback pattern applied to a possibly missing
field: `workflow.meta || dflt` is `jsOr (getField w "meta") dflt`. -/
def jsOr (o : Option Json) (dflt : Json) : Json :=
  match o with
  | some v => if truthy v then v else dflt
  | none => dflt

mutual

/-- JavaScript `String(v)` on a parsed JSON value. -/
def jsToString : Json → String
  | .null => "null"
  | .bool b => if b then "true" else "false"
  | .num n => toString n
  | .str s => s
  | .obj _ => "[object Object]"
  | .arr xs => jsArrString xs

/-- JavaScript `Array.prototype.toString`: elements joined by commas, `null` elements
rendered as the empty string. -/
def jsArrString : List Json → String
  | [] => ""
  | x :: rest =>
    let hd := match x with
      | .null => ""
      | v => jsToString v
    match rest with
    | [] => hd
    | _ => hd ++ "," ++ jsArrString rest

end

/-- Lexicographic comparison of character lists: the order JavaScript's
default `Array.prototype.sort` uses on strings (code-unit order; all
integration names here are ASCII, where code units and code points
coincide). -/
def charsLe : List Char → List Char → Bool
  | [], _ => true
  | _ :: _, [] => false
  | a :: as, b :: bs => if a < b then true else if a = b then charsLe as bs else false

/-- String comparison used by the consolidator's `.sort()`. -/
def strLeB (s t : String) : Bool :=
  charsLe s.data t.data

instance strLeBDecRel : DecidableRel (fun a b : String => strLeB a b = true) :=
  fun _ _ => inferInstance

/-- JavaScript `String.prototype.startsWith`, computed on the character list so that
concrete instances reduce inside the kernel. -/
def strStartsWith (s pfx : String) : Bool :=
  pfx.data.isPrefixOf s.data

/-- Drop the first `n` characters of a string (the scripts only apply this
to ASCII prefixes, where JavaScript's UTF-16 index `n` equals the
character index). -/
def strDrop (s : String) (n : Nat) : String :=
  String.mk (s.data.drop n)

/-- A workflow record as built by the consolidation script
(`build-dataset`): one line of the merged `n8n_workflows.jsonl` stream. -/
structure WorkflowRecord where
  id : Json
  name : Json
  node_count : Nat
  integrations : List String
  category : String
  content : Json
  meta : Json

/-- Reading `workflow.nodes || []` followed by iterating with `forEach`:
a missing or falsy `nodes` gives `[]`; a truthy non-array `nodes` makes
`forEach` throw (`none`).  Accessing `.nodes` on `null` also throws. -/
def nodesOf (w : Json) : Option (List Json) :=
  match w with
  | .null => none
  | _ =>
    match getField w "nodes" with
    | none => some []
    | some v =>
      if truthy v then
        match v with
        | .arr xs => some xs
        | _ => none
      else some []

/-- The integration contribution of one node entry in the consolidator:
`node.type && node.type.startsWith('n8n-nodes-base.')` adds the suffix
after the prefix to the set.  Outer `none` models a thrown `TypeError`
(`null` node, or a truthy non-string `type` on which `.startsWith` is not
a function); `some none` means the node contributes nothing.  Because the
`replace` is guarded by `startsWith`, replacing the first occurrence of
the prefix equals dropping its 15 characters. -/
def typeContribution (t : Option Json) : Option (Option String) :=
  match t with
  | none => some none
  | some tv =>
    if truthy tv then
      match tv with
      | .str s =>
        some (if strStartsWith s "n8n-nodes-base." then some (strDrop s 15) else none)
      | _ => none
    else some none

def nodeIntegration (node : Json) : Option (Option String) :=
  match node with
  | .null => none
  | _ => typeContribution (getField node "type")

/-- Collect all integration suffixes of a node list, in node order,
propagating a thrown `TypeError` as `none`. -/
def collectIntegrations : List Json → Option (List String)
  | [] => some []
  | n :: ns =>
    match nodeIntegration n with
    | none => none
    | some o =>
      match collectIntegrations ns with
      | none => none
      | some rest =>
        some (match o with
          | some s => s :: rest
          | none => rest)

/-- Processing of one on-disk workflow file by the consolidator's `try`
block, given the parsed file `w`, the top-level category directory name
and the filename stem (basename without `.json`).  `none` models the
silently caught exception (the file contributes no record).  The
JavaScript `Set` deduplicates keeping first occurrences and the result is
then `.sort()`ed; since the list is sorted afterwards, deduplication
keeping first or last occurrences yields the same list, so Mathlib's
`List.dedup` is used. -/
def consolidateFile (w : Json) (category stem : String) : Option WorkflowRecord :=
  match w with
  | .null => none
  | _ =>
    match nodesOf w with
    | none => none
    | some nodes =>
      match collectIntegrations nodes with
      | none => none
      | some ints =>
        some
          { id := jsOr (getField w "id") (.str stem)
            name := jsOr (getField w "name") (.str stem)
            node_count := nodes.length
            integrations := (ints.dedup).insertionSort (fun a b => strLeB a b = true)
            category := category
            content := w
            meta := jsOr (getField w "meta") (.obj [("source", .str "repository")]) }

/-- One on-disk JSON file as the consolidator sees it: its filename stem
and its parse result (`none`: unreadable or malformed JSON). -/
structure FileInput where
  stem : String
  parsed : Option Json

/-- One top-level entry of the `workflows/` directory: its name, whether
it is a directory, and (for directories) the JSON files found by the
recursive walk, in discovery order. -/
structure TopEntry where
  name : String
  isDir : Bool
  files : List FileInput

/-- Whether the consolidator walks a top-level entry: directories only,
skipping the reserved `synthetic_generated` name. -/
def walkedEntry (e : TopEntry) : Bool :=
  e.isDir && e.name != "synthetic_generated"

/-- The records one walked category directory contributes, in file order. -/
def entryRecords (e : TopEntry) : List WorkflowRecord :=
  e.files.filterMap (fun f => (f.parsed).bind (fun w => consolidateFile w e.name f.stem))

/-- All repository records the consolidator writes, in directory order. -/
def consolidateRepo (entries : List TopEntry) : List WorkflowRecord :=
  ((entries.filter walkedEntry).map entryRecords).flatten

/-- JavaScript `line.trim()` truthiness: the line contains a
non-whitespace character (modelled with the ASCII whitespace set, which
covers the dataset's JSONL streams). -/
def nonBlank (s : String) : Bool :=
  s.data.any (fun c => !c.isWhitespace)

/-- One line of the merged `n8n_workflows.jsonl` stream: either a record
serialized by the consolidator, or a line copied verbatim from the
synthetic / external JSONL sources. -/
inductive MergedLine where
  | record (r : WorkflowRecord)
  | raw (s : String)

/-- The whole merged stream a consolidator run writes: repository records
in discovery order, then the non-blank synthetic lines, then the
non-blank external lines (a missing source file is an empty list). -/
def consolidateOutput (entries : List TopEntry) (synthRaw extRaw : List String) :
    List MergedLine :=
  (consolidateRepo entries).map .record
    ++ (synthRaw.filter nonBlank).map .raw
    ++ (extRaw.filter nonBlank).map .raw

/-- Final content of a file written through a Node write stream opened
with the given flags: `'a'` appends to the previous content, the default
`'w'` (used by the consolidator via `fsSync.createWriteStream`) truncates
first. -/
def writeStreamFile (flags : String) (prev newContent : List MergedLine) :
    List MergedLine :=
  if flags = "a" then prev ++ newContent else newContent

/-- Content of `n8n_workflows.jsonl` after one consolidator run, given the
file's previous content `prev`. -/
def consolidateFinalFile (prev : List MergedLine) (entries : List TopEntry)
    (synthRaw extRaw : List String) : List MergedLine :=
  writeStreamFile "w" prev (consolidateOutput entries synthRaw extRaw)

/-!  The splitter (`scripts/split-jsonl-to-files.mjs`).  -/

/-- Which of the splitter's three per-category counters a record bumps. -/
inductive SplitCat where
  | synthetic
  | external
  | repository
deriving DecidableEq, Repr

/-- The test `record.meta?.generated === true`. -/
def metaGeneratedTrue (record : Json) : Bool :=
  match (getField record "meta").bind (fun m => getField m "generated") with
  | some (.bool true) => true
  | _ => false

/-- The field `record.meta?.archetype`. -/
def metaArchetype (record : Json) : Option Json :=
  (getField record "meta").bind (fun m => getField m "archetype")

/-- The splitter's first test:
`record.meta?.generated === true || record.meta?.archetype` (truthy). -/
def metaMarksSynthetic (record : Json) : Bool :=
  metaGeneratedTrue record || (metaArchetype record).any truthy

/-- The test `record.meta?.source === 'external_community'`. -/
def metaMarksExternal (record : Json) : Bool :=
  match (getField record "meta").bind (fun m => getField m "source") with
  | some (.str "external_community") => true
  | _ => false

/-- The splitter's decision chain for one non-null parsed record:
the bumped counter, the destination category value (`record.category` may
be any JSON value), and the optional archetype subfolder value.
Mirrors `record.meta?.generated === true || record.meta?.archetype`,
then `record.meta?.source === 'external_community'`,
then `record.category` (truthiness test), else `"uncategorized"`. -/
def splitCategorize (record : Json) : SplitCat × Json × Option Json :=
  if metaMarksSynthetic record then
    (.synthetic, .str "synthetic",
      if (metaArchetype record).any truthy then metaArchetype record else none)
  else if metaMarksExternal record then
    (.external, .str "external", none)
  else
    match getField record "category" with
    | some c =>
      if truthy c then (.repository, c, none)
      else (.repository, .str "uncategorized", none)
    | none => (.repository, .str "uncategorized", none)

/-- Sanitize the splitter's derived base filename:
`String(rawId).replace(/[^a-zA-Z0-9_-]/g, '_').substring(0, 100)`. -/
def splitSafeChar (c : Char) : Bool :=
  ('a' ≤ c && c ≤ 'z') || ('A' ≤ c && c ≤ 'Z') || ('0' ≤ c && c ≤ '9') || c = '_' || c = '-'

def makeSafeId (s : String) : String :=
  String.mk ((s.data.map (fun c => if splitSafeChar c then c else '_')).take 100)

/-- The splitter's running counters. -/
structure SplitStats where
  total : Nat := 0
  synthetic : Nat := 0
  external : Nat := 0
  repository : Nat := 0
  errors : Nat := 0
deriving DecidableEq, Repr

/-- One file written by the splitter: path components under the
`workflows/` output root (category, optional archetype subfolder), the
derived file name, and the pretty-printed JSON content. -/
structure FileWrite where
  dir : List String
  fileName : String
  content : Json

def bumpCat (s : SplitStats) : SplitCat → SplitStats
  | .synthetic => { s with synthetic := s.synthetic + 1 }
  | .external => { s with external := s.external + 1 }
  | .repository => { s with repository := s.repository + 1 }

/-- Whether the path-building and write for a categorized record succeed:
`path.join` throws a `TypeError` when the category value or a truthy
archetype subfolder value is not a string. -/
def splitWriteOk (record : Json) : Bool :=
  match splitCategorize record with
  | (_, .str _, none) => true
  | (_, .str _, some (.str _)) => true
  | _ => false

/-- The file one stream line causes the splitter to write, given the value
of `stats.total` before this line.  `none`: parse failure, the `null`
record (whose `record.meta` access throws), or a path-building failure.
The fallback name `workflow_<n>` uses `stats.total` after its increment,
i.e. the 1-based index among successfully parsed lines. -/
def stepWrite (total : Nat) (line : Option Json) : Option FileWrite :=
  match line with
  | none => none
  | some record =>
    match record with
    | .null => none
    | _ =>
      let res := splitCategorize record
      let rawId := jsOr (getField record "id")
        (jsOr (getField record "name") (.str ("workflow_" ++ toString (total + 1))))
      let fname := makeSafeId (jsToString rawId) ++ ".json"
      let contentOut := jsOr (getField record "content") record
      match res.2.1, res.2.2 with
      | .str catS, none => some ⟨[catS], fname, contentOut⟩
      | .str catS, some (.str subS) => some ⟨[catS, subS], fname, contentOut⟩
      | _, _ => none

/-- Counter updates for one stream line.  `stats.total` is incremented as
soon as `JSON.parse` succeeds; a `null` record then throws on
`record.meta` before any category counter is reached; otherwise exactly
one category counter is bumped, and a path-building failure afterwards
only adds an error. -/
def stepStats (s : SplitStats) (line : Option Json) : SplitStats :=
  match line with
  | none => { s with errors := s.errors + 1 }
  | some record =>
    let s1 := { s with total := s.total + 1 }
    match record with
    | .null => { s1 with errors := s1.errors + 1 }
    | _ =>
      let s2 := bumpCat s1 (splitCategorize record).1
      if splitWriteOk record then s2 else { s2 with errors := s2.errors + 1 }

/-- Splitter state: counters plus the files written so far, in order. -/
structure SplitState where
  stats : SplitStats := {}
  writes : List FileWrite := []

def splitStep (st : SplitState) (line : Option Json) : SplitState :=
  { stats := stepStats st.stats line
    writes := st.writes ++ (stepWrite st.stats.total line).toList }

/-- A full splitter run over the parsed lines of the merged stream
(`none` entries are lines `JSON.parse` rejects; blank lines are already
absent from the stream the consolidator writes). -/
def splitRun (lines : List (Option Json)) : SplitState :=
  lines.foldl splitStep {}

/-- Re-serialization of a consolidated record: the JSON object
`JSON.stringify` writes for it, which `JSON.parse` recovers when the
splitter reads the merged stream. -/
def recordToJson (r : WorkflowRecord) : Json :=
  .obj [("id", r.id), ("name", r.name), ("node_count", .num r.node_count),
        ("integrations", .arr (r.integrations.map .str)), ("category", .str r.category),
        ("content", r.content), ("meta", r.meta)]

/-- The splitter's view of one consolidator-written stream: each record
line parses back to the record's JSON object; the verbatim-copied
synthetic/external lines parse to whatever `JSON.parse` yields on them,
abstracted by `parseRaw`. -/
def mergedStream (entries : List TopEntry) (parseRaw : String → Option Json)
    (synthRaw extRaw : List String) : List (Option Json) :=
  (consolidateOutput entries synthRaw extRaw).map
    (fun l => match l with
      | .record r => some (recordToJson r)
      | .raw s => parseRaw s)

/-!  The renamer (`scripts/rename-workflows.mjs`).  -/

/-- Decimal digit character. -/
def digitChar (d : Nat) : Char :=
  Char.ofNat (48 + d)

def natStrAux : Nat → Nat → List Char → List Char
  | 0, _, acc => acc
  | fuel + 1, n, acc =>
    if n < 10 then digitChar n :: acc
    else natStrAux fuel (n / 10) (digitChar (n % 10) :: acc)

/-- Decimal rendering of a natural number, as a JavaScript template
literal `${counter}` renders an integer counter (structural fuel
`n + 1` always suffices since the argument shrinks by a factor 10). -/
def natStr (n : Nat) : String :=
  String.mk (natStrAux (n + 1) n [])

/-- Decimal value of a digit string (used to invert `natStr`). -/
def valAux (a : Nat) (l : List Char) : Nat :=
  l.foldl (fun x c => 10 * x + (c.toNat - 48)) a

/-- Characters the sanitizer keeps: `[a-z0-9_-]`. -/
def sanChar (c : Char) : Bool :=
  ('a' ≤ c && c ≤ 'z') || ('0' ≤ c && c ≤ '9') || c = '_' || c = '-'

/-- ASCII lowercasing, per character (`String.prototype.toLowerCase`;
non-ASCII letters whose lowercase forms fall outside `[a-z0-9_-]` are
replaced by `_` in the next step either way). -/
def jsLower (c : Char) : Char :=
  if 'A' ≤ c && c ≤ 'Z' then Char.ofNat (c.toNat + 32) else c

/-- The step `replace(/_+/g, '_')`: collapse runs of underscores to one. -/
def collapseU : List Char → List Char
  | [] => []
  | [c] => [c]
  | a :: b :: rest =>
    if a = '_' && b = '_' then collapseU (b :: rest)
    else a :: collapseU (b :: rest)

/-- The `^_` alternative of `replace(/^_|_$/g, '')`: remove one leading
underscore. -/
def trimHead (l : List Char) : List Char :=
  match l with
  | c :: t => if c = '_' then t else l
  | [] => l

/-- The `_$` alternative: remove one trailing underscore. -/
def trimLast (l : List Char) : List Char :=
  match l.getLast? with
  | some c => if c = '_' then l.dropLast else l
  | none => l

/-- The step `replace(/^_|_$/g, '')`: remove one leading and one trailing
underscore (a single `"_"` is consumed by the leading alternative). -/
def trimU (l : List Char) : List Char :=
  trimLast (trimHead l)

/-- The renamer's `sanitizeFilename`: lowercase, replace characters
outside `[a-z0-9_-]` by `_`, collapse `_` runs, trim one leading/trailing
`_`, truncate to 80 characters. -/
def sanitizeFilename (s : String) : String :=
  String.mk
    ((trimU (collapseU ((s.data.map jsLower).map
      (fun c => if sanChar c then c else '_')))).take 80)

def isHexChar (c : Char) : Bool :=
  c.isDigit || ('a' ≤ c && c ≤ 'f') || ('A' ≤ c && c ≤ 'F')

/-- The renamer's hash test on a file's basename:
`/^[0-9a-f]{12,}$/i.test(name) || /^\d{4}_/.test(name)`.  Files failing
it are skipped as already descriptive. -/
def hashLike (s : String) : Bool :=
  (decide (s.data.length ≥ 12) && s.data.all isHexChar)
    || (match s.data with
        | a :: b :: c :: d :: e :: _ =>
          a.isDigit && b.isDigit && c.isDigit && d.isDigit && e = '_'
        | _ => false)

/-- The class `\w` of JavaScript regexes. -/
def isWordChar (c : Char) : Bool :=
  c.isAlphanum || c = '_'

/-- One attempt of `/n8n-nodes-base\.(\w+)/` at a fixed position:
the literal prefix followed by at least one word character; the capture
is the maximal word-character run. -/
def n8nCaptureAt (l : List Char) : Option (List Char) :=
  if ("n8n-nodes-base.".data).isPrefixOf l then
    let cap := (l.drop 15).takeWhile isWordChar
    if cap.isEmpty then none else some cap
  else none

/-- The search `type.match(/n8n-nodes-base\.(\w+)/)`: first position (left to right)
where the pattern matches, returning the capture group. -/
def n8nScan : List Char → Option (List Char)
  | [] => none
  | c :: rest =>
    match n8nCaptureAt (c :: rest) with
    | some cap => some cap
    | none => n8nScan rest

/-- The expression `s.split('.').pop()`: the substring after the last dot. -/
def lastDotSegment (s : String) : String :=
  String.mk ((s.data.reverse.takeWhile (fun c => c != '.')).reverse)

/-- Structural/utility node types the renamer never uses for naming. -/
def SKIP_NODES : List String :=
  ["n8n-nodes-base.set", "n8n-nodes-base.code", "n8n-nodes-base.noOp",
   "n8n-nodes-base.stickyNote", "n8n-nodes-base.merge", "n8n-nodes-base.if",
   "n8n-nodes-base.switch", "n8n-nodes-base.function", "n8n-nodes-base.start"]

/-- The name part one node contributes in `generateName`.  Outer `none`
models a thrown `TypeError` (`null` node, or a truthy non-string `type`
on which `.match` is not a function). -/
def nodeNamePart (node : Json) : Option (Option String) :=
  match node with
  | .null => none
  | _ =>
    match getField node "type" with
    | none => some none
    | some t =>
      if truthy t then
        match t with
        | .str s =>
          if SKIP_NODES.contains s then some none
          else
            match n8nScan s.data with
            | some cap => some (some (String.mk cap))
            | none =>
              if s.data.contains '.' then some (some (lastDotSegment s)) else some none
        | _ => none
      else some none

def collectNameParts : List Json → Option (List String)
  | [] => some []
  | n :: ns =>
    match nodeNamePart n with
    | none => none
    | some o =>
      match collectNameParts ns with
      | none => none
      | some rest =>
        some (match o with
          | some s => s :: rest
          | none => rest)

/-- Deduplication in first-occurrence order, as a JavaScript `Set`
collects insertion order. -/
def dedupFirst (seen : List String) : List String → List String
  | [] => []
  | x :: xs =>
    if seen.contains x then dedupFirst seen xs
    else x :: dedupFirst (x :: seen) xs

/-- The renamer's `generateName(workflow, originalName)`: archetype (when
truthy) then up to four deduplicated node name parts, joined by `_` and
sanitized; with no parts, the workflow's own truthy `name` (when it
differs from `originalName`) sanitized, else the original name returned
unsanitized.  `none` models a thrown `TypeError`. -/
def generateName (w : Json) (origName : String) : Option String :=
  match w with
  | .null => none
  | _ =>
    let archPart : List Json :=
      match (getField w "meta").bind (fun m => getField m "archetype") with
      | some a => if truthy a then [a] else []
      | none => []
    match nodesOf w with
    | none => none
    | some nodes =>
      match collectNameParts nodes with
      | none => none
      | some rawParts =>
        let ints := (dedupFirst [] rawParts).take 4
        let parts := archPart ++ ints.map Json.str
        match parts with
        | [] =>
          (match getField w "name" with
            | some nm =>
              let differs : Bool := match nm with
                | .str s => s != origName
                | _ => true
              if truthy nm && differs then
                some (sanitizeFilename (jsToString nm))
              else some origName
            | none => some origName)
        | _ => some (sanitizeFilename (String.intercalate "_" (parts.map jsToString)))

/-- One file the renamer visits: its basename (without `.json`) and its
parse result. -/
structure RenItem where
  origName : String
  parsed : Option Json

/-- Outcome of one renamer file: parse/generate error; skipped by the
hash test; reached the naming stage with base name `base` and final name
`final` (`kept = true` when the computed name equals the original and the
rename is skipped). -/
inductive RenOutcome where
  | error
  | notHash
  | named (base final : String) (kept : Bool)
deriving DecidableEq, Repr

/-- Renamer state: the process-lifetime `usedNames` name→count table and
the outcomes so far. -/
structure RenState where
  used : List (String × Nat) := []
  outcomes : List RenOutcome := []

def usedCount : List (String × Nat) → String → Nat
  | [], _ => 0
  | (k, v) :: rest, b => if b = k then v else usedCount rest b

def setUsed (used : List (String × Nat)) (b : String) (n : Nat) : List (String × Nat) :=
  match used with
  | [] => [(b, n)]
  | (k, v) :: rest => if k = b then (b, n) :: rest else (k, v) :: setUsed rest b n

/-- Outcome of a hash-named file that reached name generation: `_<n>`
suffix when the base name was already used (`n` starting at 1). -/
def namedOutcome (used : List (String × Nat)) (orig : String) (w : Json) : RenOutcome :=
  match generateName w orig with
  | none => .error
  | some base =>
    let counter := usedCount used base
    let final := if counter > 0 then base ++ "_" ++ natStr counter else base
    .named base final (final = orig)

/-- The `usedNames` update of a file that reached name generation. -/
def namedUsed (used : List (String × Nat)) (orig : String) (w : Json) :
    List (String × Nat) :=
  match generateName w orig with
  | none => used
  | some base => setUsed used base (usedCount used base + 1)

/-- The outcome of one renamer file, given the current `usedNames` table:
hash test, name generation, collision counter suffix. -/
def stepOutcome (used : List (String × Nat)) (it : RenItem) : RenOutcome :=
  match it.parsed with
  | none => .error
  | some w =>
    if !hashLike it.origName then .notHash
    else namedOutcome used it.origName w

/-- The `usedNames` table after one renamer file (updated before the
same-name skip test, so even a skipped file consumes its counter slot). -/
def stepUsed (used : List (String × Nat)) (it : RenItem) : List (String × Nat) :=
  match it.parsed with
  | none => used
  | some w =>
    if !hashLike it.origName then used
    else namedUsed used it.origName w

/-- One renamer file step: hash test, name generation, collision counter
(`usedNames` is updated before the same-name skip test), rename. -/
def renStep (st : RenState) (it : RenItem) : RenState :=
  { used := stepUsed st.used it
    outcomes := st.outcomes ++ [stepOutcome st.used it] }

/-- A full renamer run over the walked files of the target folders. -/
def renRun (items : List RenItem) : RenState :=
  items.foldl renStep {}

/-- The base name an outcome produced, if it reached the naming stage. -/
def outcomeBase : RenOutcome → Option String
  | .named b _ _ => some b
  | _ => none

/-- Whether an outcome produced the given base name. -/
def hasBase (b : String) (o : RenOutcome) : Bool :=
  outcomeBase o = some b

/-!  The node coverage analyzer (`scripts/analyze-node-coverage.mjs`).  -/

/-- The analyzer's ordered keyword table (`CATEGORY_RULES`); object-key
iteration order in modern JavaScript is insertion order, so the table
order is the declaration order. -/
def CATEGORY_RULES : List (String × List String) :=
  [("database", ["postgres", "mysql", "mongo", "mariadb", "supabase", "dynamodb", "redis"]),
   ("spreadsheet", ["sheet", "airtable", "baserow", "nocodb", "grid"]),
   ("messaging", ["slack", "discord", "telegram", "teams", "mattermost", "whatsapp", "matrix"]),
   ("mail", ["gmail", "mail", "smtp", "imap", "outlook"]),
   ("crm", ["hubspot", "salesforce", "pipedrive", "zoho", "activecampaign"]),
   ("devops", ["github", "gitlab", "bitbucket", "docker", "kubernetes", "aws", "s3", "circleci", "jenkins"]),
   ("ai", ["openai", "anthropic", "langchain", "huggingface", "mistral", "gemini", "llama"]),
   ("trigger", ["trigger", "webhook", "schedule", "cron", "interval", "poll", "event"])]

/-- JavaScript `String.prototype.includes`, on character lists. -/
def strContainsSub (s pat : String) : Bool :=
  containsChars pat.data s.data
where
  containsChars (pat : List Char) : List Char → Bool
    | [] => pat.isPrefixOf []
    | c :: rest => pat.isPrefixOf (c :: rest) || containsChars pat rest

/-- The analyzer's `categorizeNode(nodeType)`: first keyword category whose keyword list
has a case-insensitive substring match, else `"other"`. -/
def categorizeNode (s : String) : String :=
  let lower := String.mk (s.data.map jsLower)
  match CATEGORY_RULES.find? (fun p => p.2.any (fun k => strContainsSub lower k)) with
  | some p => p.1
  | none => "other"

/-- One registry entry of the analyzer. -/
structure NodeInfo where
  count : Nat
  category : String
  sampleParameters : Option Json
  sampleCredentials : Option Json

/-- Add one node entry to the registry (`registry[type]` keys are the
`String(...)`-coerced type values; a missing `type` keys as
`"undefined"`).  `none` models a thrown `TypeError`: a `null` node entry,
or a first-seen non-string `type` on which `categorizeNode` calls
`.toLowerCase`. -/
def registryAddNode (reg : List (String × NodeInfo)) (node : Json) :
    Option (List (String × NodeInfo)) :=
  match node with
  | .null => none
  | _ =>
    let t := getField node "type"
    let key := match t with
      | none => "undefined"
      | some j => jsToString j
    match reg.lookup key with
    | some _ =>
      some (reg.map (fun p => if p.1 = key then (p.1, { p.2 with count := p.2.count + 1 }) else p))
    | none =>
      match t with
      | some (.str s) =>
        some (reg ++ [(key, ⟨1, categorizeNode s,
          getField node "parameters", getField node "credentials"⟩)])
      | _ => none

/-- Add one workflow's nodes to the registry.  `wf.content.nodes` is read
with no guard: a missing or null `content` throws (`none`). -/
def wfAddNodes (reg : List (String × NodeInfo)) (wf : Json) :
    Option (List (String × NodeInfo)) :=
  match getField wf "content" with
  | none => none
  | some .null => none
  | some c =>
    let nodesOpt : Option (List Json) :=
      match getField c "nodes" with
      | none => some []
      | some v =>
        if truthy v then
          match v with
          | .arr xs => some xs
          | _ => none
        else some []
    match nodesOpt with
    | none => none
    | some nodes => nodes.foldlM registryAddNode reg

/-- The analyzer's `extractNodeRegistry(workflows)`: fold all workflows into the
registry; a thrown `TypeError` anywhere aborts the whole analysis pass
(`none`). -/
def extractNodeRegistry (wfs : List Json) : Option (List (String × NodeInfo)) :=
  wfs.foldlM wfAddNodes []

/-- The analyzer's `loadDataset()`: parse each line, drop lines whose parse failed — and,
through the same `.filter(w => w)`, lines whose parsed value is falsy.
Each input entry is a line's parse result. -/
def loadDataset (lines : List (Option Json)) : List Json :=
  lines.filterMap (fun o => o.bind (fun j => if truthy j then some j else none))

/-- The analysis pass the analyzer runs before reporting. -/
def analyzeRegistry (lines : List (Option Json)) : Option (List (String × NodeInfo)) :=
  extractNodeRegistry (loadDataset lines)

/-- Whether a `type` value is a string starting with the integration
prefix. -/
def prefixTypedT : Option Json → Bool
  | some (.str s) => strStartsWith s "n8n-nodes-base."
  | _ => false

/-- Whether a node entry has a string `type` starting with the
integration prefix (the `K` of the spec's integration-count property). -/
def prefixTyped (n : Json) : Bool :=
  prefixTypedT (getField n "type")

/-- Constructor test used to compare a written file's content against an
original non-object workflow value. -/
def Json.isNum : Json → Bool
  | .num _ => true
  | _ => false

/-- The workflow file of the spec's consolidation scenario (claim C4). -/
def c4File : Json :=
  .obj [("name", .str "Test"),
        ("nodes", .arr [.obj [("type", .str "n8n-nodes-base.slack")],
                        .obj [("type", .str "n8n-nodes-base.set")]])]

/-- A record whose `meta.archetype` is present but falsy (claim C2). -/
def c2Record : Json :=
  .obj [("meta", .obj [("archetype", .str "")])]

/-- The number of on-disk workflow files the consolidator successfully
parses (i.e. whose `try` block completes): counted directly over the
walked directories' files. -/
def parsedFileCount (entries : List TopEntry) : Nat :=
  ((entries.filter walkedEntry).map
    (fun e => e.files.countP
      (fun f => ((f.parsed).bind (fun w => consolidateFile w e.name f.stem)).isSome))).sum

/-- No two adjacent underscores (the shape `replace(/_+/g, '_')`
establishes). -/
def noAdjU : List Char → Bool
  | a :: b :: rest => !(a = '_' && b = '_') && noAdjU (b :: rest)
  | _ => true

/-- The first character, if any, is not an underscore. -/
def headNotU : List Char → Bool
  | [] => true
  | c :: _ => c != '_'

/-- The 81-character string whose sanitized form ends in `_` (79 `a`s,
an underscore, and a `b`): truncation to 80 keeps the underscore that the
trim step had no reason to remove. -/
def c5Str : String :=
  String.mk (List.replicate 79 'a' ++ ['_', 'b'])

/-- The record the consolidator builds for `c4File` at
`workflows/demo/x.json`. -/
def r4 : WorkflowRecord :=
  ⟨.str "x", .str "Test", 2, ["set", "slack"], "demo", c4File,
   .obj [("source", .str "repository")]⟩

/-- An on-disk repository workflow file that carries its own
`meta.generated = true` (claim C1 counterexample input). -/
def c1GenFile : Json :=
  .obj [("meta", .obj [("generated", .bool true)])]

/-- A `demo` category directory with one meta-generated file and one file
whose JSON value is the falsy number `0`. -/
def c1Entries : List TopEntry :=
  [⟨"demo", true, [⟨"x", some c1GenFile⟩, ⟨"z", some (.num 0)⟩]⟩]

/-- A workflow with a single `slack` node (renamer witness input). -/
def w8 : Json :=
  .obj [("nodes", .arr [.obj [("type", .str "n8n-nodes-base.slack")]])]

/-- Two hash-named files whose contents produce the same base name
`slack` (renamer witness input). -/
def ren8Items : List RenItem :=
  [⟨"aaaaaaaaaaaa", some w8⟩, ⟨"bbbbbbbbbbbb", some w8⟩]

/-!  ## Claims  -/

theorem length_filterMap_eq_countP {α β : Type} (f : α → Option β) (l : List α) :
    (l.filterMap f).length = l.countP (fun a => (f a).isSome) := by
  induction l with
  | nil => rfl
  | cons a t ih =>
    cases hfa : f a with
    | none => simp [List.filterMap_cons, hfa, List.countP_cons, ih]
    | some b => simp [List.filterMap_cons, hfa, List.countP_cons, ih]

theorem consolidateRepo_length (entries : List TopEntry) :
    (consolidateRepo entries).length = parsedFileCount entries := by
  unfold consolidateRepo parsedFileCount
  rw [List.length_flatten]
  congr 1
  rw [List.map_map]
  apply List.map_congr_left
  intro e _
  exact length_filterMap_eq_countP _ _

/-- Claim C3, confirmed:  A consolidator run writes exactly one line per
successfully parsed on-disk file, plus one per non-blank synthetic line,
plus one per non-blank external line; and the output file is opened with
the truncating `'w'` flag, so the final file content is independent of
whatever a prior run left in it. -/
theorem c3_consolidator_count (prev : List MergedLine) (entries : List TopEntry)
    (synthRaw extRaw : List String) :
    (consolidateFinalFile prev entries synthRaw extRaw).length
        = parsedFileCount entries + (synthRaw.filter nonBlank).length
          + (extRaw.filter nonBlank).length ∧
    consolidateFinalFile prev entries synthRaw extRaw
        = consolidateFinalFile [] entries synthRaw extRaw := by
  constructor
  · show (consolidateOutput entries synthRaw extRaw).length = _
    unfold consolidateOutput
    simp [consolidateRepo_length entries, Nat.add_assoc]
  · rfl

/-- Claim C2, counterexample:  The claim says a record whose
`meta.archetype` is *present* is categorized `"synthetic"`.  The code
tests JavaScript truthiness, not presence: on a record whose
`meta.archetype` is the (present, falsy) empty string, the splitter falls
through all branches and categorizes it `"uncategorized"`, not
`"synthetic"`. -/
theorem c2_counterexample :
    (splitCategorize c2Record).1 = SplitCat.repository ∧
    (splitCategorize c2Record).1 ≠ SplitCat.synthetic ∧
    (splitCategorize c2Record).2.1 = Json.str "uncategorized" :=
  ⟨rfl, by decide, rfl⟩

/-- Claim C2, amended:  The Categorizer is a pure function of the record
and follows a first-match decision order in which the metadata tests are
JavaScript-truthiness tests: if `meta.generated === true` or
`meta.archetype` is truthy, the category is `"synthetic"` (with subfolder
`meta.archetype` when truthy) regardless of any other field; else if
`meta.source === "external_community"` the category is `"external"`; else
if `record.category` is truthy that value is used; otherwise (missing or
falsy `record.category`) the category is `"uncategorized"`. -/
theorem c2_amended (record : Json) :
    (metaGeneratedTrue record = true →
      (splitCategorize record).1 = SplitCat.synthetic ∧
      (splitCategorize record).2.1 = Json.str "synthetic") ∧
    (∀ a, metaArchetype record = some a → truthy a = true →
      (splitCategorize record).1 = SplitCat.synthetic ∧
      (splitCategorize record).2.1 = Json.str "synthetic" ∧
      (splitCategorize record).2.2 = some a) ∧
    (metaMarksSynthetic record = false → metaMarksExternal record = true →
      splitCategorize record = (SplitCat.external, Json.str "external", none)) ∧
    (metaMarksSynthetic record = false → metaMarksExternal record = false →
      ∀ c, getField record "category" = some c → truthy c = true →
      splitCategorize record = (SplitCat.repository, c, none)) ∧
    (metaMarksSynthetic record = false → metaMarksExternal record = false →
      (∀ c, getField record "category" = some c → truthy c = false) →
      splitCategorize record = (SplitCat.repository, Json.str "uncategorized", none)) := by
  refine ⟨?_, ?_, ?_, ?_, ?_⟩
  · intro hg
    have hs : metaMarksSynthetic record = true := by
      simp [metaMarksSynthetic, hg]
    simp [splitCategorize, hs]
  · intro a ha hta
    have hs : metaMarksSynthetic record = true := by
      simp [metaMarksSynthetic, ha, hta, Option.any]
    have harch : (metaArchetype record).any truthy = true := by
      simp [ha, hta, Option.any]
    simp [splitCategorize, hs, harch, ha, hta]
  · intro hs he
    simp [splitCategorize, hs, he]
  · intro hs he c hc htc
    simp [splitCategorize, hs, he, hc, htc]
  · intro hs he hc
    unfold splitCategorize
    rw [hs, he]
    simp only [Bool.false_eq_true, if_false]
    cases hcat : getField record "category" with
    | none => simp
    | some c => simp [hc c hcat]

/-- Claim C2, witness:  A record with `meta.generated = true` and
`meta.source = "external_community"` is still categorized `"synthetic"`:
the first rule wins regardless of other fields. -/
theorem c2_amended_witness :
    (splitCategorize (.obj [("meta", .obj [("generated", .bool true),
        ("source", .str "external_community")])])).1 = SplitCat.synthetic :=
  ((c2_amended (.obj [("meta", .obj [("generated", .bool true),
        ("source", .str "external_community")])])).1 (by decide)).1

/-- Claim C4, counterexample:  The spec's scenario record is wrong about
`integrations`: the consolidator strips the prefix from *every*
`n8n-nodes-base.*` node, including the utility node `set` (only the
renamer has a skip-set), so the result is not `["slack"]`. -/
theorem c4_counterexample :
    (consolidateFile c4File "demo" "x").isSome = true ∧
    (consolidateFile c4File "demo" "x").map (fun r => r.integrations) ≠ some ["slack"] := by
  decide

/-- Claim C4, amended:  The scenario file consolidates to a record with
`integrations = ["set", "slack"]` (both prefixed node types, deduplicated
and sorted), `node_count = 2`, and `category = "demo"`. -/
theorem c4_amended :
    (consolidateFile c4File "demo" "x").map (fun r => r.integrations) = some ["set", "slack"] ∧
    (consolidateFile c4File "demo" "x").map (fun r => r.node_count) = some 2 ∧
    (consolidateFile c4File "demo" "x").map (fun r => r.category) = some "demo" := by
  decide

theorem consolidateFile_fields {w : Json} {cat stem : String} {r : WorkflowRecord}
    (h : consolidateFile w cat stem = some r) :
    r.category = cat ∧ r.content = w ∧
    r.id = jsOr (getField w "id") (.str stem) ∧
    r.meta = jsOr (getField w "meta") (.obj [("source", .str "repository")]) := by
  unfold consolidateFile at h
  split at h
  · exact absurd h (by simp)
  · split at h
    · exact absurd h (by simp)
    · split at h
      · exact absurd h (by simp)
      · obtain rfl : _ = r := Option.some.inj h
        exact ⟨rfl, rfl, rfl, rfl⟩

theorem mem_entryRecords {e : TopEntry} {f : FileInput} {w : Json} {r : WorkflowRecord}
    (hf : f ∈ e.files) (hw : f.parsed = some w)
    (hr : consolidateFile w e.name f.stem = some r) :
    r ∈ entryRecords e := by
  unfold entryRecords
  exact List.mem_filterMap.mpr ⟨f, hf, by rw [hw]; exact hr⟩

theorem mem_consolidateRepo {entries : List TopEntry} {e : TopEntry} {r : WorkflowRecord}
    (he : e ∈ entries) (hwalk : walkedEntry e = true) (hmem : r ∈ entryRecords e) :
    r ∈ consolidateRepo entries := by
  unfold consolidateRepo
  exact List.mem_flatten.mpr ⟨entryRecords e,
    List.mem_map_of_mem _ (List.mem_filter.mpr ⟨he, hwalk⟩), hmem⟩

theorem entryRecords_category {e : TopEntry} {r : WorkflowRecord}
    (hmem : r ∈ entryRecords e) : r.category = e.name := by
  obtain ⟨f, _, hf⟩ := List.mem_filterMap.mp hmem
  cases hp : f.parsed with
  | none => rw [hp] at hf; exact absurd hf (by simp)
  | some w =>
    rw [hp] at hf
    exact (consolidateFile_fields hf).1

/-- Claim C6, confirmed:  The consolidator walks every top-level
subdirectory of the workflows root except the reserved
`synthetic_generated` name: no on-disk record carries that reserved name
as its category (records from that directory never exist), while every
file of every other directory — including one literally named
`"synthetic"` — that consolidates successfully contributes its record to
the merged output. -/
theorem c6_enumeration (entries : List TopEntry) :
    (∀ r ∈ consolidateRepo entries, r.category ≠ "synthetic_generated") ∧
    (∀ e ∈ entries, e.isDir = true → e.name ≠ "synthetic_generated" →
      ∀ f ∈ e.files, ∀ w r, f.parsed = some w →
        consolidateFile w e.name f.stem = some r → r ∈ consolidateRepo entries) := by
  constructor
  · intro r hr
    obtain ⟨l, hl, hrl⟩ := List.mem_flatten.mp hr
    obtain ⟨e, hef, rfl⟩ := List.mem_map.mp hl
    obtain ⟨-, hwalk⟩ := List.mem_filter.mp hef
    rw [entryRecords_category hrl]
    unfold walkedEntry at hwalk
    intro hname
    rw [hname] at hwalk
    simp at hwalk
  · intro e he hdir hname f hf w r hw hr
    apply mem_consolidateRepo he _ (mem_entryRecords hf hw hr)
    unfold walkedEntry
    rw [hdir]
    simpa using hname

/-- Claim C6, witness:  A top-level directory literally named
`"synthetic"` is walked: its parsed file's record reaches the merged
output. -/
theorem c6_enumeration_witness :
    (⟨Json.str "f", Json.str "f", 0, [], "synthetic", Json.obj [],
        Json.obj [("source", Json.str "repository")]⟩ : WorkflowRecord)
      ∈ consolidateRepo [⟨"synthetic", true, [⟨"f", some (Json.obj [])⟩]⟩] :=
  (c6_enumeration [⟨"synthetic", true, [⟨"f", some (Json.obj [])⟩]⟩]).2
    ⟨"synthetic", true, [⟨"f", some (Json.obj [])⟩]⟩ (List.Mem.head _)
    rfl (by decide) ⟨"f", some (Json.obj [])⟩ (List.Mem.head _)
    (Json.obj []) _ rfl rfl

theorem charsLe_total : ∀ as bs : List Char, charsLe as bs = true ∨ charsLe bs as = true := by
  intro as
  induction as with
  | nil => intro bs; left; rfl
  | cons a t ih =>
    intro bs
    cases bs with
    | nil => right; rfl
    | cons b u =>
      rcases lt_trichotomy a b with hab | hab | hab
      · left; simp [charsLe, hab]
      · subst hab
        rcases ih u with h | h
        · left; simp [charsLe, h]
        · right; simp [charsLe, h]
      · right; simp [charsLe, hab]

theorem charsLe_trans : ∀ as bs cs : List Char,
    charsLe as bs = true → charsLe bs cs = true → charsLe as cs = true := by
  intro as
  induction as with
  | nil => intro bs cs _ _; rfl
  | cons a t ih =>
    intro bs cs hab hbc
    cases bs with
    | nil => exact absurd hab (by simp [charsLe])
    | cons b u =>
      cases cs with
      | nil => exact absurd hbc (by simp [charsLe])
      | cons c v =>
        by_cases h1 : a < b
        · by_cases h2 : b < c
          · simp [charsLe, lt_trans h1 h2]
          · by_cases h3 : b = c
            · subst h3; simp [charsLe, h1]
            · exact absurd hbc (by simp [charsLe, h2, h3])
        · by_cases h1e : a = b
          · subst h1e
            simp only [charsLe, if_neg h1, if_pos rfl] at hab
            by_cases h2 : a < c
            · simp [charsLe, h2]
            · by_cases h3 : a = c
              · subst h3
                simp only [charsLe, if_neg h2, if_pos rfl] at hbc ⊢
                exact ih u v hab hbc
              · exact absurd hbc (by simp [charsLe, h2, h3])
          · exact absurd hab (by simp [charsLe, h1, h1e])

instance strLeBIsTotal : IsTotal String (fun a b => strLeB a b = true) :=
  ⟨fun a b => charsLe_total a.data b.data⟩

instance strLeBIsTrans : IsTrans String (fun a b => strLeB a b = true) :=
  ⟨fun a b c => charsLe_trans a.data b.data c.data⟩


theorem typeContribution_isSome {t : Option Json} {o : Option String}
    (h : typeContribution t = some o) : o.isSome = prefixTypedT t := by
  cases t with
  | none =>
    cases Option.some.inj h
    rfl
  | some tv =>
    cases tv with
    | str s =>
      by_cases hs : truthy (Json.str s) = true
      · simp only [typeContribution] at h
        rw [if_pos hs] at h
        cases Option.some.inj h
        by_cases hp : strStartsWith s "n8n-nodes-base." = true
        · simp [prefixTypedT, hp]
        · simp [prefixTypedT, hp]
      · simp only [typeContribution] at h
        rw [if_neg hs] at h
        cases Option.some.inj h
        have : s = "" := by simpa [truthy] using hs
        subst this
        simp [prefixTypedT, strStartsWith, List.isPrefixOf]
    | null => cases Option.some.inj h; rfl
    | bool b =>
      rcases b with _ | _
      · cases Option.some.inj h; rfl
      · exact absurd h (by simp [typeContribution, truthy])
    | num m =>
      by_cases hm : truthy (Json.num m) = true
      · simp only [typeContribution] at h
        rw [if_pos hm] at h
        exact absurd h (by simp)
      · simp only [typeContribution] at h
        rw [if_neg hm] at h
        cases Option.some.inj h
        rfl
    | arr xs => exact absurd h (by simp [typeContribution, truthy])
    | obj fs => exact absurd h (by simp [typeContribution, truthy])

theorem nodeIntegration_isSome {n : Json} {o : Option String}
    (h : nodeIntegration n = some o) : o.isSome = prefixTyped n := by
  cases n with
  | null => exact absurd h (by simp [nodeIntegration])
  | bool b => exact typeContribution_isSome h
  | num m => exact typeContribution_isSome h
  | str s => exact typeContribution_isSome h
  | arr xs => exact typeContribution_isSome h
  | obj fs => exact typeContribution_isSome h

theorem collectIntegrations_length {ns : List Json} {l : List String}
    (h : collectIntegrations ns = some l) :
    l.length = ns.countP prefixTyped := by
  induction ns generalizing l with
  | nil =>
    cases Option.some.inj h
    rfl
  | cons n t ih =>
    unfold collectIntegrations at h
    cases hn : nodeIntegration n with
    | none => rw [hn] at h; exact absurd h (by simp)
    | some o =>
      rw [hn] at h
      cases ht : collectIntegrations t with
      | none => rw [ht] at h; exact absurd h (by simp)
      | some rest =>
        rw [ht] at h
        cases Option.some.inj h
        have hps := nodeIntegration_isSome hn
        rw [List.countP_cons]
        cases o with
        | none =>
          simp only [Option.isSome] at hps
          simp [← hps, ih ht]
        | some s =>
          simp only [Option.isSome] at hps
          simp [← hps, ih ht, Nat.add_comm]

theorem consolidateFile_integrations {w : Json} {cat stem : String} {r : WorkflowRecord}
    (h : consolidateFile w cat stem = some r) :
    ∃ nodes ints, nodesOf w = some nodes ∧ collectIntegrations nodes = some ints ∧
      r.integrations = (ints.dedup).insertionSort (fun a b => strLeB a b = true) := by
  unfold consolidateFile at h
  split at h
  · exact absurd h (by simp)
  · split at h
    · exact absurd h (by simp)
    · split at h
      · exact absurd h (by simp)
      · rename_i nodes hnodes x ints hints
        obtain rfl : _ = r := Option.some.inj h
        exact ⟨nodes, ints, hnodes, hints, rfl⟩

/-- Claim C7, confirmed:  For every workflow file the consolidator accepts,
with `K` node entries whose `type` is a string starting with
`n8n-nodes-base.`, the record's `integrations` has at most `K` elements,
no duplicates, and is sorted ascending in the string order JavaScript's
`.sort()` uses. -/
theorem c7_integrations (w : Json) (cat stem : String) (r : WorkflowRecord)
    (h : consolidateFile w cat stem = some r) :
    r.integrations.length ≤ ((nodesOf w).getD []).countP prefixTyped ∧
    r.integrations.Nodup ∧
    List.Sorted (fun a b => strLeB a b = true) r.integrations := by
  obtain ⟨nodes, ints, hnodes, hints, heq⟩ := consolidateFile_integrations h
  rw [hnodes]
  refine ⟨?_, ?_, ?_⟩
  · rw [heq, (List.perm_insertionSort _ _).length_eq]
    calc ints.dedup.length ≤ ints.length := ints.dedup_sublist.length_le
      _ = _ := collectIntegrations_length hints
  · rw [heq]
    exact (List.perm_insertionSort _ _).symm.nodup ints.nodup_dedup
  · rw [heq]
    exact List.sorted_insertionSort _ _


theorem collapseU_cons (b c : Char) (r : List Char) :
    collapseU (b :: c :: r)
      = if b = '_' && c = '_' then collapseU (c :: r) else b :: collapseU (c :: r) := rfl

theorem noAdjU_cons (b c : Char) (r : List Char) :
    noAdjU (b :: c :: r) = (!(b = '_' && c = '_') && noAdjU (c :: r)) := rfl

theorem collapseU_cons_head (b : Char) (rest : List Char) :
    ∃ t, collapseU (b :: rest) = b :: t := by
  induction rest generalizing b with
  | nil => exact ⟨[], rfl⟩
  | cons c r ih =>
    by_cases h : (b = '_' && c = '_') = true
    · obtain ⟨rfl, rfl⟩ : b = '_' ∧ c = '_' := by simpa using h
      obtain ⟨t, ht⟩ := ih '_'
      exact ⟨t, by rw [collapseU_cons, if_pos (by simp), ht]⟩
    · exact ⟨collapseU (c :: r), by rw [collapseU_cons, if_neg h]⟩

theorem noAdjU_collapseU : ∀ l, noAdjU (collapseU l) = true := by
  intro l
  induction l using collapseU.induct with
  | case1 => rfl
  | case2 c => rfl
  | case3 a b rest h ih =>
    obtain ⟨rfl, rfl⟩ : a = '_' ∧ b = '_' := by simpa using h
    rw [collapseU_cons, if_pos (by simp)]
    exact ih
  | case4 a b rest h ih =>
    obtain ⟨t, ht⟩ := collapseU_cons_head b rest
    rw [collapseU_cons, if_neg h, ht]
    rw [ht] at ih
    rw [noAdjU_cons]
    simp only [Bool.and_eq_true]
    refine ⟨?_, ih⟩
    have h' : ¬(a = '_' ∧ b = '_') := by simpa [not_and] using h
    simpa using not_and_or.mp h'

theorem collapseU_of_noAdjU : ∀ l, noAdjU l = true → collapseU l = l := by
  intro l
  induction l using collapseU.induct with
  | case1 => intro _; rfl
  | case2 c => intro _; rfl
  | case3 a b rest h ih =>
    intro hadj
    rw [noAdjU_cons] at hadj
    simp only [Bool.and_eq_true, Bool.not_eq_true'] at hadj
    exact absurd h (by simp [hadj.1])
  | case4 a b rest h ih =>
    intro hadj
    rw [noAdjU_cons] at hadj
    simp only [Bool.and_eq_true] at hadj
    rw [collapseU_cons, if_neg h, ih hadj.2]

theorem mem_collapseU {c : Char} : ∀ {l : List Char}, c ∈ collapseU l → c ∈ l := by
  intro l
  induction l using collapseU.induct with
  | case1 => intro h; exact absurd h (by simp [collapseU])
  | case2 d => intro h; simpa [collapseU] using h
  | case3 a b rest h ih =>
    intro hm
    rw [collapseU_cons, if_pos h] at hm
    exact List.mem_cons_of_mem _ (ih hm)
  | case4 a b rest h ih =>
    intro hm
    rw [collapseU_cons, if_neg h] at hm
    rcases List.mem_cons.mp hm with rfl | hm
    · exact List.Mem.head _
    · exact List.mem_cons_of_mem _ (ih hm)

theorem noAdjU_tail {a : Char} {l : List Char} (h : noAdjU (a :: l) = true) :
    noAdjU l = true := by
  cases l with
  | nil => rfl
  | cons b t =>
    rw [noAdjU_cons, Bool.and_eq_true] at h
    exact h.2

theorem noAdjU_dropLast : ∀ l : List Char, noAdjU l = true → noAdjU l.dropLast = true := by
  intro l
  induction l with
  | nil => intro _; rfl
  | cons a t ih =>
    intro h
    cases t with
    | nil => rfl
    | cons b u =>
      cases u with
      | nil => rfl
      | cons c v =>
        rw [noAdjU_cons, Bool.and_eq_true] at h
        have ih' := ih (noAdjU_tail (by rw [noAdjU_cons, Bool.and_eq_true]; exact h) : noAdjU (b :: c :: v) = true)
        show noAdjU (a :: b :: (c :: v).dropLast) = true
        rw [noAdjU_cons, Bool.and_eq_true]
        exact ⟨h.1, ih' ⟩

theorem noAdjU_take : ∀ (l : List Char) (n : Nat), noAdjU l = true → noAdjU (l.take n) = true := by
  intro l
  induction l with
  | nil => intro n _; simp [noAdjU]
  | cons a t ih =>
    intro n h
    cases n with
    | zero => rfl
    | succ m =>
      cases t with
      | nil => cases m <;> rfl
      | cons b u =>
        cases m with
        | zero => rfl
        | succ k =>
          rw [noAdjU_cons, Bool.and_eq_true] at h
          have ihb := ih (k + 1) h.2
          show noAdjU (a :: b :: u.take k) = true
          rw [noAdjU_cons, Bool.and_eq_true]
          exact ⟨h.1, ihb⟩

theorem headNotU_dropLast {l : List Char} (h : headNotU l = true) :
    headNotU l.dropLast = true := by
  cases l with
  | nil => rfl
  | cons a t =>
    cases t with
    | nil => rfl
    | cons b u => exact h

theorem headNotU_take {l : List Char} (n : Nat) (h : headNotU l = true) :
    headNotU (l.take n) = true := by
  cases l with
  | nil => simp [headNotU]
  | cons a t =>
    cases n with
    | zero => rfl
    | succ m => exact h

theorem noAdjU_trimHead {l : List Char} (h : noAdjU l = true) :
    noAdjU (trimHead l) = true := by
  unfold trimHead
  cases l with
  | nil => exact h
  | cons c t =>
    by_cases hc : c = '_'
    · subst hc
      simpa using noAdjU_tail h
    · simpa [hc] using h

theorem noAdjU_trimLast {l : List Char} (h : noAdjU l = true) :
    noAdjU (trimLast l) = true := by
  unfold trimLast
  cases hgl : l.getLast? with
  | none => exact h
  | some d =>
    by_cases hd : d = '_'
    · subst hd
      simpa using noAdjU_dropLast l h
    · simpa [hd] using h

theorem noAdjU_trimU {l : List Char} (h : noAdjU l = true) : noAdjU (trimU l) = true :=
  noAdjU_trimLast (noAdjU_trimHead h)

theorem headNotU_trimHead {l : List Char} (h : noAdjU l = true) :
    headNotU (trimHead l) = true := by
  unfold trimHead
  cases l with
  | nil => rfl
  | cons c t =>
    by_cases hc : c = '_'
    · subst hc
      simp only [if_pos rfl]
      cases t with
      | nil => rfl
      | cons b u =>
        rw [noAdjU_cons, Bool.and_eq_true] at h
        have hb : ¬ b = '_' := by
          rcases h with ⟨h1, -⟩
          simp at h1
          exact h1
        simpa [headNotU] using hb
    · simp [hc, headNotU]

theorem headNotU_trimLast {l : List Char} (h : headNotU l = true) :
    headNotU (trimLast l) = true := by
  unfold trimLast
  cases hgl : l.getLast? with
  | none => exact h
  | some d =>
    by_cases hd : d = '_'
    · subst hd
      simpa using headNotU_dropLast h
    · simpa [hd] using h

theorem headNotU_trimU {l : List Char} (h : noAdjU l = true) :
    headNotU (trimU l) = true :=
  headNotU_trimLast (headNotU_trimHead h)

theorem trimU_of_clean {l : List Char} (hh : headNotU l = true)
    (hl : l.getLast? ≠ some '_') : trimU l = l := by
  unfold trimU
  have h1 : trimHead l = l := by
    unfold trimHead
    cases l with
    | nil => rfl
    | cons c t =>
      have hc : ¬ c = '_' := by simpa [headNotU] using hh
      simp [hc]
  rw [h1]
  unfold trimLast
  cases hgl : l.getLast? with
  | none => rfl
  | some d =>
    have hd : ¬ d = '_' := by
      intro hd
      exact hl (by rw [hgl, hd])
    simp [hd]

theorem trimHead_cons (a : Char) (t : List Char) :
    trimHead (a :: t) = if a = '_' then t else a :: t := rfl

theorem trimLast_of_getLast {l : List Char} {d : Char} (h : l.getLast? = some d) :
    trimLast l = if d = '_' then l.dropLast else l := by
  unfold trimLast
  rw [h]

theorem trimLast_of_none {l : List Char} (h : l.getLast? = none) : trimLast l = l := by
  unfold trimLast
  rw [h]

theorem mem_trimHead {c : Char} {l : List Char} (h : c ∈ trimHead l) : c ∈ l := by
  cases l with
  | nil => exact h
  | cons a t =>
    rw [trimHead_cons] at h
    by_cases ha : a = '_'
    · rw [if_pos ha] at h
      exact List.mem_cons_of_mem _ h
    · rwa [if_neg ha] at h

theorem mem_trimLast {c : Char} {l : List Char} (h : c ∈ trimLast l) : c ∈ l := by
  cases hgl : l.getLast? with
  | none => rwa [trimLast_of_none hgl] at h
  | some d =>
    rw [trimLast_of_getLast hgl] at h
    by_cases hd : d = '_'
    · rw [if_pos hd] at h
      exact List.dropLast_subset l h
    · rwa [if_neg hd] at h

theorem mem_trimU {c : Char} {l : List Char} (h : c ∈ trimU l) : c ∈ l :=
  mem_trimHead (mem_trimLast h)

theorem jsLower_of_sanChar {c : Char} (h : sanChar c = true) : jsLower c = c := by
  unfold jsLower
  rw [if_neg]
  intro hup
  rw [Bool.and_eq_true, decide_eq_true_eq, decide_eq_true_eq] at hup
  obtain ⟨h1, h2⟩ := hup
  unfold sanChar at h
  simp only [Bool.or_eq_true, Bool.and_eq_true, decide_eq_true_eq] at h
  rcases h with ((⟨ha, hz⟩ | ⟨h0, h9⟩) | rfl) | rfl
  · exact absurd (le_trans ha h2) (by decide)
  · exact absurd (le_trans h1 h9) (by decide)
  · exact absurd h2 (by decide)
  · exact absurd h1 (by decide)

theorem sanitize_fix {l : List Char}
    (hsan : ∀ c ∈ l, sanChar c = true) (hadj : noAdjU l = true)
    (hhead : headNotU l = true) (hlast : l.getLast? ≠ some '_') (hlen : l.length ≤ 80) :
    sanitizeFilename (String.mk l) = String.mk l := by
  unfold sanitizeFilename
  congr 1
  show (trimU (collapseU ((l.map jsLower).map (fun c => if sanChar c then c else '_')))).take 80 = l
  have h1 : l.map jsLower = l := by
    rw [List.map_congr_left (fun a ha => jsLower_of_sanChar (hsan a ha))]
    simp
  have h2 : l.map (fun c => if sanChar c then c else '_') = l := by
    rw [List.map_congr_left (fun a ha => if_pos (hsan a ha))]
    simp
  rw [h1, h2, collapseU_of_noAdjU l hadj, trimU_of_clean hhead hlast,
    List.take_of_length_le hlen]

/-- Claim C5, counterexample:  Sanitization is *not* idempotent: on 79 `a`s
followed by `_b`, the pre-truncation result is 81 characters, and the
80-character cut ends in `_`, which a second pass trims away.  The output
can also be empty for an input that *does* contain characters of
`[a-z0-9_-]`: the single underscore `"_"` sanitizes to `""`. -/
theorem c5_counterexample :
    sanitizeFilename (sanitizeFilename c5Str) ≠ sanitizeFilename c5Str ∧
    sanitizeFilename "_" = "" ∧ sanChar '_' = true := by
  decide

/-- Claim C5, amended:  The sanitized output always matches
`^[a-z0-9_-]{0,80}$` (every character in the class, length at most 80).
Sanitization is idempotent on every string whose sanitized form does not
end in `_`; when the 80-character truncation leaves a trailing
underscore, a second pass removes it.  The output may be empty even when
the input contains characters of the class (leading/trailing underscores
are trimmed), so emptiness is not equivalent to the absence of matching
characters. -/
theorem c5_amended (s : String) :
    (∀ c ∈ (sanitizeFilename s).data, sanChar c = true) ∧
    (sanitizeFilename s).length ≤ 80 ∧
    ((sanitizeFilename s).data.getLast? ≠ some '_' →
      sanitizeFilename (sanitizeFilename s) = sanitizeFilename s) := by
  have hdata : (sanitizeFilename s).data
      = (trimU (collapseU ((s.data.map jsLower).map
          (fun c => if sanChar c then c else '_')))).take 80 := rfl
  have hsanAll : ∀ c ∈ (sanitizeFilename s).data, sanChar c = true := by
    intro c hc
    rw [hdata] at hc
    have hc1 := mem_trimU (List.take_subset _ _ hc)
    have hc2 := mem_collapseU hc1
    obtain ⟨a, -, ha⟩ := List.mem_map.mp hc2
    by_cases hsa : sanChar a = true
    · rw [← ha, if_pos hsa]
      exact hsa
    · rw [← ha, if_neg hsa]
      decide
  have hlen : (sanitizeFilename s).data.length ≤ 80 := by
    rw [hdata]
    exact List.length_take_le _ _
  refine ⟨hsanAll, hlen, ?_⟩
  intro hlast
  have hadj : noAdjU (sanitizeFilename s).data = true := by
    rw [hdata]
    exact noAdjU_take _ 80 (noAdjU_trimU (noAdjU_collapseU _))
  have hhead : headNotU (sanitizeFilename s).data = true := by
    rw [hdata]
    exact headNotU_take 80 (headNotU_trimU (noAdjU_collapseU _))
  exact sanitize_fix hsanAll hadj hhead hlast hlen

/-- Claim C5, witness:  A sanitized form not ending in `_` is a fixed
point: `"Hello World!"` sanitizes to `"hello_world"` and re-sanitizing
changes nothing. -/
theorem c5_amended_witness :
    (sanitizeFilename "Hello World!").data.getLast? ≠ some '_' ∧
    sanitizeFilename (sanitizeFilename "Hello World!") = sanitizeFilename "Hello World!" :=
  ⟨by decide, (c5_amended "Hello World!").2.2 (by decide)⟩

theorem stepStats_sum {s : SplitStats} {record : Json} (h : record ≠ Json.null) :
    (stepStats s (some record)).total = s.total + 1 ∧
    (stepStats s (some record)).synthetic + (stepStats s (some record)).external
      + (stepStats s (some record)).repository
      = s.synthetic + s.external + s.repository + 1 := by
  have hred : stepStats s (some record)
      = (if splitWriteOk record then bumpCat { s with total := s.total + 1 } (splitCategorize record).1
         else { bumpCat { s with total := s.total + 1 } (splitCategorize record).1 with
                  errors := (bumpCat { s with total := s.total + 1 } (splitCategorize record).1).errors + 1 }) := by
    cases record with
    | null => exact absurd rfl h
    | bool b => rfl
    | num n => rfl
    | str t => rfl
    | arr xs => rfl
    | obj fs => rfl
  rw [hred]
  cases hc : (splitCategorize record).1 <;>
    by_cases hw : splitWriteOk record = true <;>
      simp [bumpCat, hc, hw] <;> omega

/-- Claim C9, counterexample:  A stream line consisting of the JSON
literal `null` parses successfully, so `stats.total` is incremented, but
`record.meta` then throws before any category counter is reached: after
splitting `["null"]`, `total = 1` while
`synthetic + external + repository = 0`. -/
theorem c9_counterexample :
    (splitRun [some Json.null]).stats.total = 1 ∧
    (splitRun [some Json.null]).stats.synthetic + (splitRun [some Json.null]).stats.external
      + (splitRun [some Json.null]).stats.repository = 0 ∧
    (splitRun [some Json.null]).stats.errors = 1 ∧
    (splitRun [some Json.null]).stats.total
      ≠ (splitRun [some Json.null]).stats.synthetic + (splitRun [some Json.null]).stats.external
        + (splitRun [some Json.null]).stats.repository := by
  decide

/-- Claim C9, amended:  For any split run over a stream none of whose
lines is the JSON literal `null`, `stats.total` equals
`stats.synthetic + stats.external + stats.repository` — in the final
report and at every intermediate point, since every prefix of such a
stream is again such a stream: each successfully parsed non-null line
increments exactly one category counter (uncategorized records count
under `repository`), and failed lines increment none.  A parsed `null`
line is the one exception: it increments `total` (and `errors`) but no
category counter. -/
theorem c9_amended (lines : List (Option Json)) (h : ∀ l ∈ lines, l ≠ some Json.null) :
    (splitRun lines).stats.total
      = (splitRun lines).stats.synthetic + (splitRun lines).stats.external
        + (splitRun lines).stats.repository := by
  have hgen : ∀ (ls : List (Option Json)), (∀ l ∈ ls, l ≠ some Json.null) →
      ∀ st : SplitState,
        st.stats.total = st.stats.synthetic + st.stats.external + st.stats.repository →
        (ls.foldl splitStep st).stats.total
          = (ls.foldl splitStep st).stats.synthetic + (ls.foldl splitStep st).stats.external
            + (ls.foldl splitStep st).stats.repository := by
    intro ls
    induction ls with
    | nil => intro _ st hst; exact hst
    | cons a t ih =>
      intro hns st hst
      have ht : ∀ l ∈ t, l ≠ some Json.null := fun l hl => hns l (List.mem_cons_of_mem _ hl)
      show ((t.foldl splitStep (splitStep st a)).stats.total = _)
      apply ih ht
      cases a with
      | none => simpa [splitStep, stepStats] using hst
      | some record =>
        have hrec : record ≠ Json.null := by
          intro hr
          exact hns (some record) (List.Mem.head _) (by rw [hr])
        obtain ⟨h1, h2⟩ := @stepStats_sum st.stats record hrec
        have hs : (splitStep st (some record)).stats = stepStats st.stats (some record) := rfl
        rw [hs, h1, h2, hst]
  exact hgen lines h {} rfl

/-- Claim C9, witness:  A run over one ordinary record line and one
unparsable line satisfies the invariant. -/
theorem c9_amended_witness :
    (splitRun [some (Json.obj []), none]).stats.total
      = (splitRun [some (Json.obj []), none]).stats.synthetic
        + (splitRun [some (Json.obj []), none]).stats.external
        + (splitRun [some (Json.obj []), none]).stats.repository :=
  c9_amended [some (Json.obj []), none] (by
    intro l hl
    rcases List.mem_cons.mp hl with rfl | hl
    · exact fun hc => Json.noConfusion (Option.some.inj hc)
    · rcases List.mem_cons.mp hl with rfl | hl
      · exact fun hc => Option.noConfusion hc
      · cases hl)

theorem wfAddNodes_none {reg : List (String × NodeInfo)} {wf : Json}
    (hc : getField wf "content" = none) : wfAddNodes reg wf = none := by
  unfold wfAddNodes
  rw [hc]

theorem wfAddNodes_content {reg reg' : List (String × NodeInfo)} {wf : Json}
    (h : wfAddNodes reg wf = some reg') :
    ∃ v, getField wf "content" = some v ∧ v ≠ Json.null := by
  unfold wfAddNodes at h
  split at h
  · exact absurd h (by simp)
  · exact absurd h (by simp)
  · rename_i c hnn hc
    exact ⟨c, hc, by
      intro hv
      exact hnn (by rw [hv])⟩

theorem extract_content_necessary {wfs : List Json} {reg : List (String × NodeInfo)}
    (h : extractNodeRegistry wfs = some reg) :
    ∀ wf ∈ wfs, ∃ v, getField wf "content" = some v ∧ v ≠ Json.null := by
  have hgen : ∀ (ws : List Json) (r0 : List (String × NodeInfo)) (r : List (String × NodeInfo)),
      ws.foldlM wfAddNodes r0 = some r →
      ∀ wf ∈ ws, ∃ v, getField wf "content" = some v ∧ v ≠ Json.null := by
    intro ws
    induction ws with
    | nil => intro r0 r _ wf hwf; cases hwf
    | cons a t ih =>
      intro r0 r hfold wf hwf
      rw [List.foldlM_cons] at hfold
      obtain ⟨r1, hr1, hrest⟩ := Option.bind_eq_some.mp hfold
      rcases List.mem_cons.mp hwf with rfl | hwf
      · exact wfAddNodes_content hr1
      · exact ih r1 r hrest wf hwf
  exact hgen wfs [] reg h

theorem extract_abort {wfs : List Json} {wf : Json} (hmem : wf ∈ wfs)
    (hc : getField wf "content" = none) : extractNodeRegistry wfs = none := by
  have hgen : ∀ (ws : List Json) (r0 : List (String × NodeInfo)), wf ∈ ws →
      ws.foldlM wfAddNodes r0 = none := by
    intro ws
    induction ws with
    | nil => intro r0 hm; cases hm
    | cons a t ih =>
      intro r0 hm
      rw [List.foldlM_cons]
      rcases List.mem_cons.mp hm with rfl | hm
      · rw [wfAddNodes_none hc]
        rfl
      · cases ha : wfAddNodes r0 a with
        | none => rfl
        | some r1 => simpa [Option.bind] using ih r1 hm
  exact hgen wfs [] hmem

/-- Claim C10, confirmed:  The Node Coverage Analyzer reads
`wf.content.nodes` without guarding for a missing `content`: (1) if the
registry extraction over the loaded dataset succeeds, every loaded record
necessarily had a `content` field (and a non-null one); (2) a single
loaded record lacking `content` makes the extraction raise, aborting the
entire analysis pass; (3) unparsable lines are merely filtered out by
`loadDataset` and change nothing. -/
theorem c10_analyzer (lines : List (Option Json)) :
    (∀ reg, analyzeRegistry lines = some reg →
      ∀ wf ∈ loadDataset lines, ∃ v, getField wf "content" = some v) ∧
    (∀ wf ∈ loadDataset lines, getField wf "content" = none →
      analyzeRegistry lines = none) ∧
    analyzeRegistry (none :: lines) = analyzeRegistry lines := by
  refine ⟨?_, ?_, rfl⟩
  · intro reg hreg wf hwf
    obtain ⟨v, hv, -⟩ := extract_content_necessary hreg wf hwf
    exact ⟨v, hv⟩
  · intro wf hwf hc
    exact extract_abort hwf hc

/-- Claim C10, witness:  One parsable record without a `content` field
aborts the whole analysis. -/
theorem c10_analyzer_witness :
    analyzeRegistry [some (Json.obj [])] = none :=
  (c10_analyzer [some (Json.obj [])]).2.1 (Json.obj []) (List.Mem.head _) rfl

theorem digitChar_toNat {d : Nat} (h : d < 10) : (digitChar d).toNat = 48 + d := by
  interval_cases d <;> decide

theorem natStrAux_append : ∀ (fuel n : Nat) (acc : List Char), n < fuel →
    natStrAux fuel n acc = natStrAux fuel n [] ++ acc := by
  intro fuel
  induction fuel with
  | zero => intro n acc h; omega
  | succ f ih =>
    intro n acc h
    by_cases h10 : n < 10
    · simp [natStrAux, h10]
    · have hdiv : n / 10 < f := by
        have h1 : n / 10 < n := Nat.div_lt_self (by omega) (by omega)
        omega
      have e : ∀ acc' : List Char, natStrAux (f + 1) n acc'
          = if n < 10 then digitChar n :: acc'
            else natStrAux f (n / 10) (digitChar (n % 10) :: acc') := fun _ => rfl
      rw [e, e, if_neg h10, if_neg h10,
          ih (n / 10) (digitChar (n % 10) :: acc) hdiv,
          ih (n / 10) [digitChar (n % 10)] hdiv]
      simp

theorem valAux_append (a : Nat) (l1 l2 : List Char) :
    valAux a (l1 ++ l2) = valAux (valAux a l1) l2 := by
  unfold valAux
  exact List.foldl_append _ _ _ _

theorem natStrAux_val : ∀ (fuel n : Nat), n < fuel →
    valAux 0 (natStrAux fuel n []) = n := by
  intro fuel
  induction fuel with
  | zero => intro n h; omega
  | succ f ih =>
    intro n h
    have e : ∀ acc' : List Char, natStrAux (f + 1) n acc'
        = if n < 10 then digitChar n :: acc'
          else natStrAux f (n / 10) (digitChar (n % 10) :: acc') := fun _ => rfl
    by_cases h10 : n < 10
    · rw [e, if_pos h10]
      show valAux 0 [digitChar n] = n
      unfold valAux
      simp [digitChar_toNat h10]
    · have hdiv : n / 10 < f := by
        have h1 : n / 10 < n := Nat.div_lt_self (by omega) (by omega)
        omega
      rw [e, if_neg h10, natStrAux_append f (n / 10) [digitChar (n % 10)] hdiv,
        valAux_append]
      rw [ih (n / 10) hdiv]
      show 10 * (n / 10) + ((digitChar (n % 10)).toNat - 48) = n
      rw [digitChar_toNat (Nat.mod_lt n (by omega))]
      omega

theorem natStr_inj {m n : Nat} (h : natStr m = natStr n) : m = n := by
  have hd : natStrAux (m + 1) m [] = natStrAux (n + 1) n [] := congrArg String.data h
  have hm := natStrAux_val (m + 1) m (by omega)
  have hn := natStrAux_val (n + 1) n (by omega)
  rw [hd] at hm
  omega

theorem usedCount_setUsed (used : List (String × Nat)) (b b' : String) (n : Nat) :
    usedCount (setUsed used b n) b' = if b' = b then n else usedCount used b' := by
  induction used with
  | nil =>
    by_cases h : b' = b <;> simp [setUsed, usedCount, h]
  | cons kv rest ih =>
    obtain ⟨k, v⟩ := kv
    by_cases hk : k = b
    · subst hk
      by_cases h : b' = k <;> simp [setUsed, usedCount, h]
    · by_cases h : b' = k
      · subst h
        simp [setUsed, usedCount, hk]
      · simp [setUsed, usedCount, hk, h, ih]

theorem step_cases (used : List (String × Nat)) (it : RenItem) :
    (∃ b f kp, stepOutcome used it = .named b f kp ∧
      f = (if usedCount used b > 0 then b ++ "_" ++ natStr (usedCount used b) else b) ∧
      stepUsed used it = setUsed used b (usedCount used b + 1)) ∨
    ((stepOutcome used it = .error ∨ stepOutcome used it = .notHash) ∧
      stepUsed used it = used) := by
  obtain ⟨orig, parsed⟩ := it
  cases parsed with
  | none => right; exact ⟨Or.inl rfl, rfl⟩
  | some w =>
    have eo : stepOutcome used ⟨orig, some w⟩
        = if (!hashLike orig) = true then RenOutcome.notHash
          else namedOutcome used orig w := rfl
    have eu : stepUsed used ⟨orig, some w⟩
        = if (!hashLike orig) = true then used else namedUsed used orig w := rfl
    by_cases hh : (!hashLike orig) = true
    · right
      rw [eo, eu, if_pos hh, if_pos hh]
      exact ⟨Or.inr rfl, rfl⟩
    · rw [eo, eu, if_neg hh, if_neg hh]
      cases hg : generateName w orig with
      | none =>
        right
        constructor
        · left
          unfold namedOutcome
          rw [hg]
        · unfold namedUsed
          rw [hg]
      | some base =>
        left
        have hu : namedUsed used orig w = setUsed used base (usedCount used base + 1) := by
          unfold namedUsed
          rw [hg]
        have ho : ∃ kp, namedOutcome used orig w = RenOutcome.named base
            (if usedCount used base > 0 then base ++ "_" ++ natStr (usedCount used base)
             else base) kp := by
          unfold namedOutcome
          rw [hg]
          exact ⟨_, rfl⟩
        obtain ⟨kp, ho⟩ := ho
        exact ⟨base, _, kp, ho, rfl, hu⟩

theorem hasBase_named (b b' : String) (f : String) (kp : Bool) :
    hasBase b' (.named b f kp) = if b' = b then true else false := by
  by_cases h : b' = b
  · subst h; simp [hasBase, outcomeBase]
  · simp [hasBase, outcomeBase, h, Ne.symm h]

theorem append_singleton_decomp {α : Type} {l p q : List α} {a o : α}
    (h : l ++ [a] = p ++ o :: q) :
    (p = l ∧ o = a ∧ q = []) ∨ (∃ q', q = q' ++ [a] ∧ l = p ++ o :: q') := by
  rcases q.eq_nil_or_concat with rfl | ⟨q', a', rfl⟩
  · left
    obtain ⟨h1, h2⟩ := List.append_inj' h rfl
    exact ⟨h1.symm, by simpa using h2.symm, rfl⟩
  · right
    rw [List.concat_eq_append] at h
    have h2 : l ++ [a] = (p ++ o :: q') ++ [a'] := by simpa using h
    obtain ⟨h3, h4⟩ := List.append_inj' h2 rfl
    obtain rfl : a = a' := by simpa using h4
    exact ⟨q', List.concat_eq_append _ _, h3⟩

theorem renRun_inv (items : List RenItem) :
    (∀ b, usedCount (renRun items).used b = (renRun items).outcomes.countP (hasBase b)) ∧
    (∀ p o q b f kp, (renRun items).outcomes = p ++ o :: q → o = RenOutcome.named b f kp →
      f = if p.countP (hasBase b) = 0 then b
          else b ++ "_" ++ natStr (p.countP (hasBase b))) := by
  have hgen : ∀ (ls : List RenItem) (st : RenState),
      (∀ b, usedCount st.used b = st.outcomes.countP (hasBase b)) →
      (∀ p o q b f kp, st.outcomes = p ++ o :: q → o = RenOutcome.named b f kp →
        f = if p.countP (hasBase b) = 0 then b
            else b ++ "_" ++ natStr (p.countP (hasBase b))) →
      (∀ b, usedCount (ls.foldl renStep st).used b
          = (ls.foldl renStep st).outcomes.countP (hasBase b)) ∧
      (∀ p o q b f kp, (ls.foldl renStep st).outcomes = p ++ o :: q →
        o = RenOutcome.named b f kp →
        f = if p.countP (hasBase b) = 0 then b
            else b ++ "_" ++ natStr (p.countP (hasBase b))) := by
    intro ls
    induction ls with
    | nil => intro st hcnt hout; exact ⟨hcnt, hout⟩
    | cons it t ih =>
      intro st hcnt hout
      apply ih
      · intro b
        show usedCount (stepUsed st.used it) b
            = (st.outcomes ++ [stepOutcome st.used it]).countP (hasBase b)
        rw [List.countP_append]
        rcases step_cases st.used it with ⟨b0, f0, kp0, ho, hf, hu⟩ | ⟨ho, hu⟩
        · rw [hu, ho, usedCount_setUsed]
          by_cases hb : b = b0
          · subst hb
            simp [List.countP_cons, hasBase_named, hcnt b]
          · simp [List.countP_cons, hasBase_named, hb, hcnt b]
        · rcases ho with ho | ho <;>
            rw [hu, ho] <;> simp [List.countP_cons, hasBase, outcomeBase, hcnt b]
      · intro p o q b f kp hdec ho
        subst ho
        have hdec' : st.outcomes ++ [stepOutcome st.used it]
            = p ++ RenOutcome.named b f kp :: q := hdec
        rcases append_singleton_decomp hdec' with ⟨rfl, hoa, rfl⟩ | ⟨q', rfl, hl⟩
        · rcases step_cases st.used it with ⟨b0, f0, kp0, hso, hf, -⟩ | ⟨hso, -⟩
          · rw [hso] at hoa
            have h1 := hoa.symm
            injection h1 with e1 e2 e3
            subst e1
            subst e2
            rw [hf, ← hcnt b0]
            by_cases hz : usedCount st.used b0 = 0
            · simp [hz]
            · simp [hz, Nat.pos_of_ne_zero hz]
          · rcases hso with hso | hso <;> rw [hso] at hoa <;> exact absurd hoa.symm (by simp)
        · exact hout p (RenOutcome.named b f kp) q' b f kp hl rfl
  exact hgen items {} (fun b => rfl) (fun p o q b f kp hdec => by
    exact absurd hdec (by simp))

theorem fmt_ne_of_lt {b : String} {k1 k2 : Nat} (h : k1 < k2) :
    (if k1 = 0 then b else b ++ "_" ++ natStr k1)
      ≠ (if k2 = 0 then b else b ++ "_" ++ natStr k2) := by
  have hk2 : ¬ k2 = 0 := by omega
  rw [if_neg hk2]
  by_cases hk1 : k1 = 0
  · rw [if_pos hk1]
    intro he
    have hlen := congrArg String.length he
    rw [String.length_append, String.length_append] at hlen
    have h1 : ("_" : String).length = 1 := rfl
    omega
  · rw [if_neg hk1]
    intro he
    have hd := congrArg String.data he
    rw [String.data_append, String.data_append, String.data_append,
      String.data_append, List.append_assoc, List.append_assoc] at hd
    have hd3 := List.append_cancel_left (List.append_cancel_left hd)
    exact absurd (natStr_inj (congrArg String.mk hd3)) (by omega)

/-- Claim C8, confirmed:  Within one renamer run, collisions are resolved
against the run-lifetime `usedNames` table: any file reaching the naming
stage whose base name was produced by `k` earlier files ends with the
base name itself when `k = 0` and with suffix `_k` otherwise; hence any
two files in the run producing the same base name obtain different final
filenames. -/
theorem c8_collisions (items : List RenItem) :
    (∀ p o q b f kp, (renRun items).outcomes = p ++ o :: q →
      o = RenOutcome.named b f kp →
      f = if p.countP (hasBase b) = 0 then b
          else b ++ "_" ++ natStr (p.countP (hasBase b))) ∧
    (∀ p o₁ m o₂ q b f₁ f₂ kp₁ kp₂,
      (renRun items).outcomes = p ++ o₁ :: (m ++ o₂ :: q) →
      o₁ = RenOutcome.named b f₁ kp₁ → o₂ = RenOutcome.named b f₂ kp₂ →
      f₁ ≠ f₂) := by
  obtain ⟨-, hout⟩ := renRun_inv items
  refine ⟨hout, ?_⟩
  intro p o₁ m o₂ q b f₁ f₂ kp₁ kp₂ hdec h1 h2
  have e1 := hout p o₁ (m ++ o₂ :: q) b f₁ kp₁ hdec h1
  have hdec2 : (renRun items).outcomes = (p ++ o₁ :: m) ++ o₂ :: q := by
    rw [hdec]
    simp
  have e2 := hout (p ++ o₁ :: m) o₂ q b f₂ kp₂ hdec2 h2
  have hlt : p.countP (hasBase b) < (p ++ o₁ :: m).countP (hasBase b) := by
    subst h1
    rw [List.countP_append, List.countP_cons]
    have hb : hasBase b (RenOutcome.named b f₁ kp₁) = true := by
      simp [hasBase, outcomeBase]
    rw [hb]
    simp
  rw [e1, e2]
  exact fmt_ne_of_lt hlt

/-- Claim C8, witness:  Two hash-named files both yielding base name
`slack`: the first keeps `slack`, the second becomes `slack_1`, and the
theorem instance confirms their final names differ. -/
theorem c8_collisions_witness :
    (renRun ren8Items).outcomes
        = [RenOutcome.named "slack" "slack" false,
           RenOutcome.named "slack" "slack_1" false] ∧
    ("slack" : String) ≠ "slack_1" :=
  ⟨by decide,
    (c8_collisions ren8Items).2 [] (RenOutcome.named "slack" "slack" false) []
      (RenOutcome.named "slack" "slack_1" false) [] "slack" "slack" "slack_1"
      false false (by decide) rfl rfl⟩

theorem getField_recordToJson_category (r : WorkflowRecord) :
    getField (recordToJson r) "category" = some (Json.str r.category) := by
  simp [recordToJson, getField, List.lookup]

theorem getField_recordToJson_content (r : WorkflowRecord) :
    getField (recordToJson r) "content" = some r.content := by
  simp [recordToJson, getField, List.lookup]

theorem getField_recordToJson_id (r : WorkflowRecord) :
    getField (recordToJson r) "id" = some r.id := by
  simp [recordToJson, getField, List.lookup]

theorem truthy_jsOr_str {o : Option Json} {s : String} (hs : s ≠ "") :
    truthy (jsOr o (.str s)) = true := by
  cases o with
  | none => simpa [jsOr, truthy] using hs
  | some v =>
    have e : jsOr (some v) (.str s) = if truthy v then v else .str s := rfl
    by_cases hv : truthy v = true
    · rw [e, if_pos hv]
      exact hv
    · rw [e, if_neg hv]
      simpa [truthy] using hs

theorem splitCategorize_repo {r : WorkflowRecord}
    (hgen : metaMarksSynthetic (recordToJson r) = false)
    (hext : metaMarksExternal (recordToJson r) = false)
    (hcat : r.category ≠ "") :
    splitCategorize (recordToJson r) = (SplitCat.repository, Json.str r.category, none) := by
  unfold splitCategorize
  rw [hgen, hext]
  simp only [Bool.false_eq_true, if_false, getField_recordToJson_category]
  have ht : truthy (Json.str r.category) = true := by
    simpa [truthy] using hcat
  rw [ht]
  simp

theorem stepWrite_record (t : Nat) (r : WorkflowRecord)
    (hgen : metaMarksSynthetic (recordToJson r) = false)
    (hext : metaMarksExternal (recordToJson r) = false)
    (hcat : r.category ≠ "") (hid : truthy r.id = true)
    (hcon : truthy r.content = true) :
    stepWrite t (some (recordToJson r))
      = some ⟨[r.category], makeSafeId (jsToString r.id) ++ ".json", r.content⟩ := by
  have e : stepWrite t (some (recordToJson r))
      = (let res := splitCategorize (recordToJson r)
         let rawId := jsOr (getField (recordToJson r) "id")
           (jsOr (getField (recordToJson r) "name")
             (.str ("workflow_" ++ toString (t + 1))))
         let fname := makeSafeId (jsToString rawId) ++ ".json"
         let contentOut := jsOr (getField (recordToJson r) "content") (recordToJson r)
         match res.2.1, res.2.2 with
         | .str catS, none => some ⟨[catS], fname, contentOut⟩
         | .str catS, some (.str subS) => some ⟨[catS, subS], fname, contentOut⟩
         | _, _ => none) := rfl
  rw [e, splitCategorize_repo hgen hext hcat]
  simp only [getField_recordToJson_id, getField_recordToJson_content]
  have h1 : jsOr (some r.id) (jsOr (getField (recordToJson r) "name")
      (.str ("workflow_" ++ toString (t + 1)))) = r.id := by
    simp [jsOr, hid]
  have h2 : jsOr (some r.content) (recordToJson r) = r.content := by
    simp [jsOr, hcon]
  rw [h1, h2]

theorem writes_mono (lines : List (Option Json)) (st : SplitState) (fw : FileWrite)
    (h : fw ∈ st.writes) : fw ∈ (lines.foldl splitStep st).writes := by
  induction lines generalizing st with
  | nil => exact h
  | cons a rest ih =>
    exact ih (splitStep st a) (List.mem_append_left _ h)

theorem write_mem_foldl (lines : List (Option Json)) (st : SplitState)
    (l : Option Json) (fw : FileWrite) (hl : l ∈ lines)
    (hw : ∀ t, stepWrite t l = some fw) :
    fw ∈ (lines.foldl splitStep st).writes := by
  induction lines generalizing st with
  | nil => cases hl
  | cons a rest ih =>
    rcases List.mem_cons.mp hl with rfl | hl
    · apply writes_mono rest (splitStep st l) fw
      show fw ∈ st.writes ++ (stepWrite st.stats.total l).toList
      rw [hw st.stats.total]
      exact List.mem_append_right _ (List.Mem.head _)
    · exact ih (splitStep st a) hl

theorem record_mem_mergedStream {entries : List TopEntry} {r : WorkflowRecord}
    (parseRaw : String → Option Json) (synthRaw extRaw : List String)
    (h : r ∈ consolidateRepo entries) :
    some (recordToJson r) ∈ mergedStream entries parseRaw synthRaw extRaw := by
  unfold mergedStream consolidateOutput
  rw [List.map_append, List.map_append]
  apply List.mem_append_left
  apply List.mem_append_left
  rw [List.map_map]
  exact List.mem_map_of_mem _ h

/-- Claim C1, counterexample:  Consolidate→split does *not* place every
successfully parsed on-disk file back under its original category
directory, and does not always write back the original content: a
`workflows/demo/` file carrying its own `meta.generated = true` is
consolidated with that meta verbatim and the splitter redirects it to
`synthetic/`; and a file whose JSON value is the falsy `0` has
`record.content || record` fall back to the whole wrapper record, so no
written file's content is the original number.  Both files parse
successfully. -/
theorem c1_roundtrip_counterexample :
    (consolidateFile c1GenFile "demo" "x").isSome = true ∧
    (consolidateFile (Json.num 0) "demo" "z").isSome = true ∧
    ((splitRun (mergedStream c1Entries (fun _ => none) [] [])).writes.map
        (fun fw => fw.dir)) = [["synthetic"], ["demo"]] ∧
    ((splitRun (mergedStream c1Entries (fun _ => none) [] [])).writes.map
        (fun fw => fw.content.isNum)) = [false, false] ∧
    (Json.num 0).isNum = true := by
  decide

/-- Claim C1, amended:  For every on-disk repository workflow file that
the Consolidator successfully parses to a JavaScript-truthy value, whose
consolidated record's meta does not mark it synthetic
(`meta.generated === true` or truthy `meta.archetype`) or external
(`meta.source === "external_community"`), and whose category directory
name and filename stem are non-empty, running consolidate followed by
split writes a file whose JSON content equals the original parsed file,
under a directory named after the file's original top-level category
subdirectory — whatever the parse results of the pre-merged
synthetic/external lines are.  Files carrying such meta markers are
redirected to `synthetic`/`external` instead, and a record with falsy
`content` has the whole record written in its place. -/
theorem c1_roundtrip_amended (entries : List TopEntry)
    (parseRaw : String → Option Json) (synthRaw extRaw : List String)
    (e : TopEntry) (f : FileInput) (w : Json) (r : WorkflowRecord)
    (he : e ∈ entries) (hdir : e.isDir = true)
    (hname : e.name ≠ "synthetic_generated") (hne : e.name ≠ "")
    (hstem : f.stem ≠ "") (hf : f ∈ e.files) (hw : f.parsed = some w)
    (hr : consolidateFile w e.name f.stem = some r) (htruthy : truthy w = true)
    (hgen : metaMarksSynthetic (recordToJson r) = false)
    (hext : metaMarksExternal (recordToJson r) = false) :
    ∃ fw ∈ (splitRun (mergedStream entries parseRaw synthRaw extRaw)).writes,
      fw.dir = [e.name] ∧ fw.content = w := by
  obtain ⟨hcat, hcon, hid, -⟩ := consolidateFile_fields hr
  have hwalk : walkedEntry e = true := by
    unfold walkedEntry
    rw [hdir]
    simpa using hname
  have hrr : r ∈ consolidateRepo entries :=
    mem_consolidateRepo he hwalk (mem_entryRecords hf hw hr)
  have hline : some (recordToJson r) ∈ mergedStream entries parseRaw synthRaw extRaw :=
    record_mem_mergedStream parseRaw synthRaw extRaw hrr
  have hcatne : r.category ≠ "" := by
    rw [hcat]
    exact hne
  have hidt : truthy r.id = true := by
    rw [hid]
    exact truthy_jsOr_str hstem
  have hcont : truthy r.content = true := by
    rw [hcon]
    exact htruthy
  refine ⟨⟨[r.category], makeSafeId (jsToString r.id) ++ ".json", r.content⟩, ?_, ?_, ?_⟩
  · exact write_mem_foldl _ _ _ _ hline
      (fun t => stepWrite_record t r hgen hext hcatne hidt hcont)
  · rw [hcat]
  · exact hcon

/-- Claim C1, witness:  The scenario file at `workflows/demo/x.json`
(no meta of its own) comes back under `demo/` with its original parsed
content. -/
theorem c1_roundtrip_amended_witness :
    ∃ fw ∈ (splitRun (mergedStream [⟨"demo", true, [⟨"x", some c4File⟩]⟩]
        (fun _ => none) [] [])).writes,
      fw.dir = ["demo"] ∧ fw.content = c4File :=
  c1_roundtrip_amended [⟨"demo", true, [⟨"x", some c4File⟩]⟩] (fun _ => none) [] []
    ⟨"demo", true, [⟨"x", some c4File⟩]⟩ ⟨"x", some c4File⟩ c4File r4
    (List.Mem.head _) rfl (by decide) (by decide) (by decide)
    (List.Mem.head _) rfl rfl (by decide) (by decide) (by decide)

/-- Claim C7, witness: at the scenario file, the record's integrations
`["set", "slack"]` satisfy the bound (`K = 2`), are duplicate-free, and
sorted. -/
theorem c7_integrations_witness :
    r4.integrations.length ≤ ((nodesOf c4File).getD []).countP prefixTyped ∧
    r4.integrations.Nodup ∧
    List.Sorted (fun a b => strLeB a b = true) r4.integrations :=
  c7_integrations c4File "demo" "x" r4 rfl
